import Mathlib

/-
Verification development for the ImageToText repository.

The two pipelines under verification are embedded shallowly:
  * `src/ocr_engine.py`   — image-variant generation and recognition selection
    (`OCREngine._preprocess_image`, `OCREngine.recognize_text`);
  * `src/error_checker.py` — the five-pass text-correction pipeline
    (`ErrorChecker.check_text` and its helper passes).

Texts are lists of characters (`Text := List Char`).  Python string
primitives (`str.replace`, `str.strip`, `str.split`, regex scans) are
modelled as executable Lean functions; character-class predicates
(`str.isalpha`, `\w`, `str.lower`) are modelled for the ASCII and Cyrillic
repertoire this program processes.  External capabilities (cv2, tesseract,
LanguageTool, pyspellchecker) are parameters: total functions or
`Except`-valued functions, `Option`-wrapped where the source probes for
availability at construction time.
-/

namespace ImageToText

/-- Texts are modelled as lists of characters. -/
abbrev Text := List Char

/-- Shorthand turning a string literal into a `Text`. -/
def txt (s : String) : Text := s.toList

/-- Membership in the Cyrillic letter class `[а-яёА-ЯЁ]` used by the
regular expressions of `error_checker.py`. -/
def isCyr (c : Char) : Bool :=
  (0x430 ≤ c.toNat && c.toNat ≤ 0x44F) ||
  (0x410 ≤ c.toNat && c.toNat ≤ 0x42F) ||
  c.toNat = 0x451 || c.toNat = 0x401

/-- Python `str.isalpha`, modelled for the ASCII-Latin and Cyrillic
characters this program processes. -/
def pyIsAlpha (c : Char) : Bool :=
  (('a' ≤ c && c ≤ 'z') || ('A' ≤ c && c ≤ 'Z')) || isCyr c

/-- The regex word-character class `\w`, modelled for ASCII and Cyrillic:
letters, decimal digits and the underscore. -/
def pyIsWordChar (c : Char) : Bool :=
  pyIsAlpha c || c.isDigit || c = '_'

/-- Python whitespace for `str.strip` / `str.split`. -/
def pyIsSpace (c : Char) : Bool :=
  c = ' ' || c = '\t' || c = '\n' || c = '\r' ||
  c.toNat = 0x0B || c.toNat = 0x0C

/-- Python `str.lower` on one character, modelled for ASCII-Latin and
Cyrillic (`А..Я` shift by 0x20, `Ё` maps to `ё`). -/
def pyLowerChar (c : Char) : Char :=
  if 65 ≤ c.toNat ∧ c.toNat ≤ 90 then Char.ofNat (c.toNat + 32)
  else if 0x410 ≤ c.toNat ∧ c.toNat ≤ 0x42F then Char.ofNat (c.toNat + 0x20)
  else if c.toNat = 0x401 then Char.ofNat 0x451
  else c

/-- Python `str.lower` on a text. -/
def pyLower (t : Text) : Text := t.map pyLowerChar

/-- Python `str.strip`: drop whitespace at both ends. -/
def pyStrip (t : Text) : Text :=
  ((t.dropWhile pyIsSpace).reverse.dropWhile pyIsSpace).reverse

/-- Python slicing `t[a:b]` (with the usual clamping for out-of-range
bounds). -/
def slice (t : Text) (a b : Nat) : Text := (t.take b).drop a

/-- Whether `pat` is a prefix of `s` (decidable, structural). -/
def startsWith : Text → Text → Bool
  | [], _ => true
  | _ :: _, [] => false
  | p :: ps, c :: cs => p = c && startsWith ps cs

/-- Python `s.replace(pat, rep)` for the empty pattern: the replacement is
inserted before every character and once at the end. -/
def pyReplaceEmptyPat (rep : Text) : Text → Text
  | [] => rep
  | c :: cs => rep ++ c :: pyReplaceEmptyPat rep cs

/-- Fuel-indexed worker for `pyReplace` (each step consumes at least one
character of `s`, so fuel `s.length` suffices). -/
def pyReplaceGo (pat rep : Text) : Nat → Text → Text
  | _, [] => []
  | 0, s => s
  | fuel + 1, c :: cs =>
    if startsWith pat (c :: cs) then
      rep ++ pyReplaceGo pat rep fuel ((c :: cs).drop pat.length)
    else
      c :: pyReplaceGo pat rep fuel cs

/-- Python `s.replace(pat, rep)`: every non-overlapping occurrence of
`pat`, scanned left to right, is replaced by `rep`. -/
def pyReplace (pat rep s : Text) : Text :=
  if pat = [] then pyReplaceEmptyPat rep s
  else pyReplaceGo pat rep s.length s

/-- Python `s.replace(pat, rep, 1)`: only the first occurrence of `pat`
is replaced. -/
def pyReplaceFirst (pat rep : Text) : Text → Text
  | [] => if pat = [] then rep else []
  | c :: cs =>
    if pat = [] then rep ++ c :: cs
    else if startsWith pat (c :: cs) then rep ++ (c :: cs).drop pat.length
    else c :: pyReplaceFirst pat rep cs

/-- Whether `pat` occurs as a contiguous substring of `s`
(Python `pat in s`, for nonempty `pat`; the empty pattern is always
contained). -/
def containsSub : Text → Text → Bool
  | s, pat =>
    match s with
    | [] => pat = []
    | c :: cs => startsWith pat (c :: cs) || containsSub cs pat

/-- Worker for `runsBy`: accumulates the current run (reversed). -/
def runsByGo (p : Char → Bool) : Text → Text → List Text
  | [], cur => if cur = [] then [] else [cur.reverse]
  | c :: cs, cur =>
    if p c then runsByGo p cs (c :: cur)
    else if cur = [] then runsByGo p cs []
    else cur.reverse :: runsByGo p cs []

/-- Maximal runs of characters satisfying `p`, in order. -/
def runsBy (p : Char → Bool) (t : Text) : List Text := runsByGo p t []

/-- `re.findall(r'\b\w+\b', text)`: the maximal runs of word characters. -/
def wordsOf (t : Text) : List Text := runsBy pyIsWordChar t

/-- Python `str.split()` with no argument: maximal runs of
non-whitespace. -/
def splitWs (t : Text) : List Text := runsBy (fun c => !pyIsSpace c) t

/-- `re.findall(r'\b[а-яёА-ЯЁ]+\b', text)`: the maximal word-character
runs consisting entirely of Cyrillic letters (the surrounding `\b`
anchors reject runs containing any non-Cyrillic word character). -/
def cyrWords (t : Text) : List Text :=
  (wordsOf t).filter (fun w => w.all isCyr)

/-- One entry of the error list built by `ErrorChecker.check_text`
(the Python dict with keys `type`, `original`, `suggestion`, `text`,
`description`, and optionally `confidence` and `candidates`). -/
structure Issue where
  type : String
  original : Text
  suggestion : Text
  text : Text
  description : Text
  confidence : Option ℚ := none
  candidates : List Text := []
  deriving DecidableEq, Repr

/-- One match object returned by `language_tool_python`'s `check`
(the fields `_check_grammar` consumes: `category`, `offset`, `length`,
`replacements`). -/
structure LTMatch where
  category : String
  offset : Nat
  length : Nat
  replacements : List Text
  deriving DecidableEq, Repr

/-- The `pyspellchecker` capability consumed by `_check_spelling`:
`unknown` and `candidates`, each of which may raise (`Except`). -/
structure SpellCap where
  unknown : List Text → Except String (List Text)
  candidates : Text → Except String (List Text)

/-- One `ErrorChecker` instance.  `lt = none` models
`has_language_tool = False` (the `LanguageTool` import/construction
failed); `spell = none` models `has_spellchecker = False`.  A present
capability is a function that may raise (`Except`). -/
structure ErrorChecker where
  lt : Option (Text → Except String (List LTMatch))
  spell : Option SpellCap

/-- The dictionary `self.context_errors` built in
`ErrorChecker.__init__`, in insertion order. -/
def contextErrors : List (Text × Text) :=
  [ (txt "в нес", txt "в нее"),
    (txt "на нес", txt "на нее"),
    (txt "к неи", txt "к ней"),
    (txt "из нес", txt "из нее"),
    (txt "для нес", txt "для нее"),
    (txt "ве", txt "её"),
    (txt "кнам", txt "к нам") ]

/-- Whether position `i` of `t` starts a match of the hyphenation
pattern `([а-яёА-ЯЁ])-\n([а-яёА-ЯЁ])`: a Cyrillic letter, a hyphen, a
line break, a Cyrillic letter. -/
def hyphAt (t : Text) (i : Nat) : Bool :=
  i + 4 ≤ t.length &&
  isCyr (t.getD i ' ') &&
  t.getD (i + 1) ' ' = '-' &&
  t.getD (i + 2) ' ' = '\n' &&
  isCyr (t.getD (i + 3) ' ')

/-- Fuel-indexed worker for the non-overlapping left-to-right scan of
`re.finditer` with the hyphenation pattern; returns match start
positions.  Each step advances `i` by at least one, so fuel `t.length`
suffices from `i = 0`. -/
def hyphScanGo (t : Text) : Nat → Nat → List Nat
  | 0, _ => []
  | fuel + 1, i =>
    if i < t.length then
      if hyphAt t i then i :: hyphScanGo t fuel (i + 4)
      else hyphScanGo t fuel (i + 1)
    else []

/-- Start positions of all (non-overlapping) hyphenation-pattern
matches in `t`. -/
def hyphScan (t : Text) : List Nat := hyphScanGo t t.length 0

/-- The `while word_start > 0 and text[word_start - 1].isalpha()` loop of
`_fix_word_hyphenation`: extend left across alphabetic characters. -/
def wordStart (t : Text) : Nat → Nat
  | 0 => 0
  | i + 1 => if pyIsAlpha (t.getD i ' ') then wordStart t i else i + 1

/-- Fuel-indexed worker for the
`while word_end < len(text) and text[word_end].isalpha()` loop. -/
def wordEndGo (t : Text) : Nat → Nat → Nat
  | 0, i => i
  | fuel + 1, i =>
    if i < t.length && pyIsAlpha (t.getD i ' ') then wordEndGo t fuel (i + 1)
    else i

/-- Extend right across alphabetic characters from position `i`. -/
def wordEnd (t : Text) (i : Nat) : Nat := wordEndGo t t.length i

/-- The issue built by `_fix_word_hyphenation` for the match starting at
position `s` of `t` (the match spans `s .. s+4`). -/
def hyphIssueAt (t : Text) (s : Nat) : Issue :=
  let e := s + 4
  let part1 := t.getD s ' '
  let part2 := t.getD (s + 3) ' '
  let ws := wordStart t s
  let we := wordEnd t e
  let fullOriginal := slice t ws we
  let fullSuggestion := slice t ws s ++ [part1, part2] ++ slice t e we
  { type := "hyphenation_error",
    original := fullOriginal,
    suggestion := fullSuggestion,
    text := slice t s e,
    description := txt "Перенос слова: \"" ++ fullOriginal ++
      txt "\" → \"" ++ fullSuggestion ++ txt "\"" }

/-- `ErrorChecker._fix_word_hyphenation`: one issue per match of
`([а-яёА-ЯЁ])-\n([а-яёА-ЯЁ])`, expanded to the full surrounding word. -/
def fixWordHyphenation (t : Text) : List Issue :=
  (hyphScan t).map (hyphIssueAt t)

/-- The fixed confusable-character mapping of `_check_ocr_errors`, in
insertion order. -/
def ocrReplacements : List (Char × Char) :=
  [('0', 'О'), ('1', 'І'), ('3', 'З'), ('l', 'і')]

/-- The loop body of `_check_ocr_errors`: for each mapping entry whose
bad character occurs in the original word, replace every occurrence of
that character in the accumulated corrected word. -/
def ocrCorrectWord (w : Text) : Text :=
  ocrReplacements.foldl
    (fun cur bg =>
      if w.contains bg.1 then cur.map (fun c => if c = bg.1 then bg.2 else c)
      else cur)
    w

/-- `ErrorChecker._check_ocr_errors`: one issue per word-boundary token
occurrence whose confusable-corrected form differs from the token. -/
def checkOcrErrors (t : Text) : List Issue :=
  (wordsOf t).filterMap (fun w =>
    let cw := ocrCorrectWord w
    if cw ≠ w then
      some { type := "ocr_error", original := w, suggestion := cw, text := w,
             description := txt "Ошибка OCR: " ++ w ++ txt " → " ++ cw }
    else none)

/-- Fuel-indexed worker for `re.finditer(re.escape(w), text, IGNORECASE)`
with an already-lowercase pattern `pat`: non-overlapping left-to-right
scan collecting start positions where the lowercased slice equals
`pat`. -/
def igScanGo (t pat : Text) : Nat → Nat → List Nat
  | 0, _ => []
  | fuel + 1, i =>
    if pat ≠ [] && i + pat.length ≤ t.length then
      if pyLower (slice t i (i + pat.length)) = pat then
        i :: igScanGo t pat fuel (i + pat.length)
      else igScanGo t pat fuel (i + 1)
    else []

/-- Start positions of the case-insensitive matches of `pat` in `t`. -/
def igScan (t pat : Text) : List Nat := igScanGo t pat t.length 0

/-- The issue built by `_check_context_errors` for a match of the wrong
phrase starting at position `i` (its `original` is the actually matched,
possibly differently-cased, slice of the text). -/
def contextIssueAt (t : Text) (wrong correct : Text) (i : Nat) : Issue :=
  let g := slice t i (i + wrong.length)
  { type := "context_error", original := g, suggestion := correct, text := g,
    description := txt "Контекстная ошибка: \"" ++ g ++ txt "\" → \"" ++
      correct ++ txt "\"" }

/-- The issues `_check_context_errors` emits for one dictionary entry:
nothing unless the lowercased wrong phrase occurs in the lowercased
text, else one issue per case-insensitive match. -/
def contextIssuesFor (t : Text) (wc : Text × Text) : List Issue :=
  if containsSub (pyLower t) (pyLower wc.1) then
    (igScan t (pyLower wc.1)).map (contextIssueAt t wc.1 wc.2)
  else []

/-- `ErrorChecker._check_context_errors`: the per-entry issues, in
dictionary insertion order. -/
def checkContextErrors (t : Text) : List Issue :=
  (contextErrors.map (contextIssuesFor t)).flatten

/-- The Python literal `0.8` appearing in `_check_grammar` and in the
grammar-application threshold of `check_text`, modelled as the exact
rational 4/5 (constructed directly so that kernel evaluation
reduces). -/
def conf08 : ℚ := ⟨4, 5, by decide, by decide⟩

/-- Whether `_check_grammar` keeps a LanguageTool match: category
`TYPOS` or `GRAMMAR`, with at least one replacement. -/
def keptLTMatch (m : LTMatch) : Bool :=
  (m.category = "TYPOS" || m.category = "GRAMMAR") && m.replacements ≠ []

/-- The loop body of `_check_grammar` over the matches returned by the
capability: each kept match becomes one issue with fixed confidence
`0.8`, its original being the slice `text[offset : offset + length]`. -/
def checkGrammarCore (t : Text) (ms : List LTMatch) : List Issue :=
  ms.filterMap (fun m =>
    if m.category = "TYPOS" || m.category = "GRAMMAR" then
      match m.replacements with
      | [] => none
      | s :: _ =>
        let og := slice t m.offset (m.offset + m.length)
        some { type := "grammar_error", original := og, suggestion := s,
               text := og,
               description := txt "Грамматика: \"" ++ og ++ txt "\" → \"" ++
                 s ++ txt "\"",
               confidence := some conf08 }
    else none)

/-- `ErrorChecker._check_grammar`: returns no issues when the capability
is absent or its `check` call raises. -/
def checkGrammar (ck : ErrorChecker) (t : Text) : List Issue :=
  match ck.lt with
  | none => []
  | some f =>
    match f t with
    | .error _ => []
    | .ok ms => checkGrammarCore t ms

/-- The loop of `_check_spelling` over the misspelled words: a raising
`candidates` call stops the loop and returns the issues accumulated so
far; a word with no candidates is skipped. -/
def spellLoop (sp : SpellCap) : List Text → List Issue → List Issue
  | [], acc => acc
  | w :: ws, acc =>
    match sp.candidates w with
    | .error _ => acc
    | .ok [] => spellLoop sp ws acc
    | .ok (c :: cs) =>
      spellLoop sp ws (acc ++
        [{ type := "spelling_error", original := w, suggestion := c, text := w,
           description := txt "Орфография: " ++ w ++ txt " → " ++ c,
           candidates := (c :: cs).take 3 }])

/-- `ErrorChecker._check_spelling`: extracts the Cyrillic words, asks the
capability for the unknown ones, and builds one issue per unknown word
with a nonempty candidate list; a raising `unknown` call yields no
issues. -/
def checkSpelling (ck : ErrorChecker) (t : Text) : List Issue :=
  match ck.spell with
  | none => []
  | some sp =>
    match sp.unknown (cyrWords t) with
    | .error _ => []
    | .ok misspelled => spellLoop sp misspelled []

/-- `counts[error_type] = counts.get(error_type, 0) + 1` on an
insertion-ordered association list. -/
def bumpCount (k : String) : List (String × Nat) → List (String × Nat)
  | [] => [(k, 1)]
  | (a, n) :: rest =>
    if a = k then (a, n + 1) :: rest else (a, n) :: bumpCount k rest

/-- `ErrorChecker._count_error_types`. -/
def countErrorTypes (errors : List Issue) : List (String × Nat) :=
  errors.foldl (fun acc e => bumpCount e.type acc) []

/-- A global-substring-replace application step of `check_text`
(`corrected_text = corrected_text.replace(original, suggestion)` for
each issue in order). -/
def applyAll (t : Text) (issues : List Issue) : Text :=
  issues.foldl (fun cur e => pyReplace e.original e.suggestion cur) t

/-- The grammar-pass application step of `check_text`: replace the first
occurrence only, and only when `error.get('confidence', 0) > 0.8`. -/
def applyGrammar (t : Text) (issues : List Issue) : Text :=
  issues.foldl
    (fun cur e =>
      if e.confidence.getD 0 > conf08 then pyReplaceFirst e.original e.suggestion cur
      else cur)
    t

/-- The spelling-pass application step of `check_text`: replace the
first occurrence of each issue's original. -/
def applySpell (t : Text) (issues : List Issue) : Text :=
  issues.foldl (fun cur e => pyReplaceFirst e.original e.suggestion cur) t

/-- The corrected text after pass 0 (hyphenation) of `check_text`;
at this point `corrected_text` still equals the input text. -/
def t1of (text : Text) : Text := applyAll text (fixWordHyphenation text)

/-- The OCR-confusable issues of pass 1; `check_text` scans the original
input `text` here, not the accumulated `corrected_text`. -/
def ocrIssuesOf (text : Text) (check_ocr_errors : Bool) : List Issue :=
  if check_ocr_errors then checkOcrErrors text else []

/-- The corrected text after pass 1. -/
def t2of (text : Text) (co : Bool) : Text :=
  applyAll (t1of text) (ocrIssuesOf text co)

/-- The context issues of pass 2, scanned over the accumulated
corrected text. -/
def ctxIssuesOf (text : Text) (co : Bool) : List Issue :=
  checkContextErrors (t2of text co)

/-- The corrected text after pass 2. -/
def t3of (text : Text) (co : Bool) : Text :=
  applyAll (t2of text co) (ctxIssuesOf text co)

/-- The grammar issues of pass 3 (guarded by the `check_grammar` flag
and `has_language_tool`). -/
def gramIssuesOf (ck : ErrorChecker) (text : Text) (cg co : Bool) : List Issue :=
  if cg && ck.lt.isSome then checkGrammar ck (t3of text co) else []

/-- The corrected text after pass 3. -/
def t4of (ck : ErrorChecker) (text : Text) (cg co : Bool) : Text :=
  applyGrammar (t3of text co) (gramIssuesOf ck text cg co)

/-- The spelling issues of pass 4 (guarded by the `check_grammar` flag
and `has_spellchecker`). -/
def spellIssuesOf (ck : ErrorChecker) (text : Text) (cg co : Bool) : List Issue :=
  if cg && ck.spell.isSome then checkSpelling ck (t4of ck text cg co) else []

/-- The corrected text after pass 4 (the final corrected text). -/
def t5of (ck : ErrorChecker) (text : Text) (cg co : Bool) : Text :=
  applySpell (t4of ck text cg co) (spellIssuesOf ck text cg co)

/-- The full error list of `check_text`, in emission order. -/
def errorsOf (ck : ErrorChecker) (text : Text) (cg co : Bool) : List Issue :=
  fixWordHyphenation text ++ ocrIssuesOf text co ++ ctxIssuesOf text co ++
    gramIssuesOf ck text cg co ++ spellIssuesOf ck text cg co

/-- The result dict of `ErrorChecker.check_text`. -/
structure CheckResult where
  success : Bool
  original_text : Text
  corrected_text : Text
  errors : List Issue
  error_count : Nat
  error_types : List (String × Nat)
  deriving DecidableEq, Repr

/-- `ErrorChecker.check_text(text, check_grammar, check_ocr_errors)`. -/
def checkText (ck : ErrorChecker) (text : Text) (cg co : Bool) : CheckResult :=
  { success := true,
    original_text := text,
    corrected_text := t5of ck text cg co,
    errors := errorsOf ck text cg co,
    error_count := (errorsOf ck text cg co).length,
    error_types := countErrorTypes (errorsOf ck text cg co) }

/-- An `ErrorChecker` whose grammar and spelling capabilities both
failed to load at construction time. -/
def noCaps : ErrorChecker := { lt := none, spell := none }

/-- The external cv2/tesseract capabilities consumed by `OCREngine`,
over an abstract raster type.  `imread` is the decode result for the
processed path (`none` models `cv2.imread` returning `None`); the seven
transforms are total functions; `tesseract` may raise. -/
structure CvOps (Img : Type) where
  imread : Option Img
  cvtColorGray : Img → Img
  claheApply : Img → Img
  otsuThreshold : Img → Img
  adaptiveThreshold : Img → Img
  morphClose : Img → Img
  denoise : Img → Img
  sharpen : Img → Img
  tesseract : Img → Except String Text

/-- `OCREngine._preprocess_image`: an empty list when the image cannot
be decoded, otherwise the seven fixed variants, grayscale first; every
non-grayscale transform is applied to the grayscale base. -/
def preprocessImage {Img : Type} (ops : CvOps Img) : List Img :=
  match ops.imread with
  | none => []
  | some img =>
    let gray := ops.cvtColorGray img
    [gray, ops.claheApply gray, ops.otsuThreshold gray,
     ops.adaptiveThreshold gray, ops.morphClose gray,
     ops.denoise gray, ops.sharpen gray]

/-- `OCREngine._recognize_with_tesseract`: a raising capability call is
caught and degraded to the empty text. -/
def recognizeWithTesseract {Img : Type} (ops : CvOps Img) (img : Img) : Text :=
  match ops.tesseract img with
  | .error _ => []
  | .ok t => t

/-- The selection loop of `OCREngine.recognize_text`: starting from the
empty text, a candidate replaces the current best only when its
(untrimmed) length is strictly greater. -/
def selectBest (texts : List Text) : Text :=
  texts.foldl (fun best t => if t.length > best.length then t else best) []

/-- The result dict of `OCREngine.recognize_text`. -/
structure OcrResult where
  success : Bool
  error : Option String
  full_text : Text
  characters : Nat
  words : Nat
  deriving Repr

/-- `OCREngine.recognize_text`: file-existence check, variant
generation, per-variant recognition, length-based selection, and the
trimmed result with its statistics. -/
def recognizeText {Img : Type} (ops : CvOps Img) (fileExists : Bool) : OcrResult :=
  if !fileExists then
    { success := false, error := some "Файл не найден", full_text := [],
      characters := 0, words := 0 }
  else
    let images := preprocessImage ops
    let best := selectBest (images.map (recognizeWithTesseract ops))
    let ft := pyStrip best
    { success := true, error := none, full_text := ft,
      characters := ft.length, words := (splitWs ft).length }

/-- Reference selection rule: the earliest text of maximal (untrimmed)
length, the empty text for an empty list. -/
def firstLongest : List Text → Text
  | [] => []
  | t :: ts =>
    let r := firstLongest ts
    if r.length > t.length then r else t

/-- Selection rule written from the claim's words: the earliest variant
whose TRIMMED text has maximal length. -/
def firstLongestTrimmed : List Text → Text
  | [] => []
  | t :: ts =>
    let r := firstLongestTrimmed ts
    if (pyStrip r).length > (pyStrip t).length then r else t

/-- The per-character confusable mapping induced by
`ocrReplacements`: a mapped character goes to its replacement, any
other character is unchanged. -/
def confChar (c : Char) : Char :=
  (((ocrReplacements.find? (fun bg => bg.1 = c)).map Prod.snd).getD c)

/-- A concrete capability bundle over the one-point raster type whose
image decode fails (`cv2.imread` returned `None`). -/
def undecodableOps : CvOps Unit :=
  { imread := none, cvtColorGray := id, claheApply := id, otsuThreshold := id,
    adaptiveThreshold := id, morphClose := id, denoise := id, sharpen := id,
    tesseract := fun _ => .ok [] }

/-- A concrete capability bundle over the one-point raster type whose
image decode succeeds. -/
def decodableOps : CvOps Unit :=
  { undecodableOps with imread := some () }

/-- A concrete capability bundle whose variants extract the texts
`"ab"` and `"c \n  "` (all later variants empty): raw lengths 2 and 5,
trimmed lengths 2 and 1. -/
def twoTextOps : CvOps Nat :=
  { imread := some 0, cvtColorGray := fun _ => 0, claheApply := fun _ => 1,
    otsuThreshold := fun _ => 2, adaptiveThreshold := fun _ => 2,
    morphClose := fun _ => 2, denoise := fun _ => 2, sharpen := fun _ => 2,
    tesseract := fun i =>
      if i = 0 then .ok (txt "ab")
      else if i = 1 then .ok (txt "c \n  ") else .ok [] }

/-- A concrete spelling capability whose `unknown` call succeeds and
whose `candidates` call raises on every word except `"аб"`. -/
def partialSpell : SpellCap :=
  { unknown := fun ws => .ok ws,
    candidates := fun w =>
      if w = txt "аб" then .ok [txt "ап"] else .error "candidates failed" }

/-- An `ErrorChecker` holding the partially-raising spelling
capability and no grammar capability. -/
def partialSpellChecker : ErrorChecker := { lt := none, spell := some partialSpell }

/-- An `ErrorChecker` whose grammar capability loaded but raises on
every `check` call. -/
def failingGrammar : ErrorChecker :=
  { lt := some (fun _ => .error "lt call failed"), spell := none }

/-- A spelling capability whose `unknown` call always raises. -/
def failingUnknownSpell : SpellCap :=
  { unknown := fun _ => .error "unknown failed", candidates := fun _ => .ok [] }

/-- An `ErrorChecker` holding the spelling capability whose `unknown`
call raises. -/
def failingUnknownChecker : ErrorChecker :=
  { lt := none, spell := some failingUnknownSpell }

/-- The issue `_check_grammar` builds for one kept LanguageTool match:
original is the `text[offset : offset + length]` slice, suggestion the
first replacement, confidence the fixed `0.8`. -/
def grammarIssueOf (t : Text) (m : LTMatch) : Issue :=
  let og := slice t m.offset (m.offset + m.length)
  let s := m.replacements.headD []
  { type := "grammar_error", original := og, suggestion := s, text := og,
    description := txt "Грамматика: \"" ++ og ++ txt "\" → \"" ++ s ++ txt "\"",
    confidence := some conf08 }

/-- A concrete issue carrying the pipeline's fixed grammar confidence
(0.8, which does not pass the strict threshold). -/
def lowConfidenceIssue : Issue :=
  { type := "grammar_error", original := txt "b", suggestion := txt "X",
    text := txt "b", description := [], confidence := some conf08 }

/-- A concrete issue whose confidence strictly exceeds the threshold. -/
def confidentIssue : Issue :=
  { type := "grammar_error", original := txt "b", suggestion := txt "X",
    text := txt "b", description := [], confidence := some 1 }

/-- The concrete confusable issue the pass emits for the token
`"3а"`. -/
def issue3a : Issue :=
  { type := "ocr_error", original := txt "3а", suggestion := txt "За",
    text := txt "3а",
    description := txt "Ошибка OCR: " ++ txt "3а" ++ txt " → " ++ txt "За" }

/-- The modelled fixed confidence constant is the decimal `0.8`. -/
theorem conf08_eq : conf08 = 0.8 := by
  apply Rat.ext <;> norm_num [conf08]

/-- Evaluation of `Char.ofNat` below the surrogate range. -/
theorem char_toNat_ofNat {n : Nat} (h : n < 55296) : (Char.ofNat n).toNat = n := by
  simp [Char.ofNat, Nat.isValidChar, h, Char.toNat, Char.ofNatAux,
    BitVec.toNat_ofNatLt, UInt32.toNat]

/-- A character outside both uppercase ranges is fixed by
`pyLowerChar`. -/
theorem pyLowerChar_of_not (d : Char)
    (h1 : ¬(65 ≤ d.toNat ∧ d.toNat ≤ 90))
    (h2 : ¬(1040 ≤ d.toNat ∧ d.toNat ≤ 1071))
    (h3 : ¬(d.toNat = 1025)) : pyLowerChar d = d := by
  unfold pyLowerChar
  rw [if_neg h1, if_neg h2, if_neg h3]

/-- The output of `pyLowerChar` is never an uppercase character. -/
theorem pyLowerChar_lowered (c : Char) :
    ¬(65 ≤ (pyLowerChar c).toNat ∧ (pyLowerChar c).toNat ≤ 90) ∧
    ¬(1040 ≤ (pyLowerChar c).toNat ∧ (pyLowerChar c).toNat ≤ 1071) ∧
    ¬((pyLowerChar c).toNat = 1025) := by
  unfold pyLowerChar
  split_ifs with h1 h2 h3
  · rw [char_toNat_ofNat (by omega)]; omega
  · rw [char_toNat_ofNat (by omega)]; omega
  · rw [char_toNat_ofNat (by omega)]; omega
  · exact ⟨h1, h2, h3⟩

/-- Python lowercasing a character is idempotent. -/
theorem pyLowerChar_idem (c : Char) : pyLowerChar (pyLowerChar c) = pyLowerChar c :=
  pyLowerChar_of_not _ (pyLowerChar_lowered c).1 (pyLowerChar_lowered c).2.1
    (pyLowerChar_lowered c).2.2

/-- Python lowercasing a text is idempotent. -/
theorem pyLower_idem (t : Text) : pyLower (pyLower t) = pyLower t := by
  simp only [pyLower, List.map_map]
  exact List.map_congr_left (fun c _ => pyLowerChar_idem c)

/-- Bumping one kind's count increases the total of the counts by one. -/
theorem sum_bumpCount (k : String) :
    ∀ l : List (String × Nat),
      ((bumpCount k l).map Prod.snd).sum = (l.map Prod.snd).sum + 1 := by
  intro l
  induction l with
  | nil => simp [bumpCount]
  | cons p rest ih =>
    obtain ⟨a, n⟩ := p
    by_cases h : a = k <;> simp [bumpCount, h, ih] <;> omega

/-- The totals invariant of the counting fold, generalized over the
accumulator. -/
theorem countErrorTypes_go (es : List Issue) :
    ∀ acc : List (String × Nat),
      (((es.foldl (fun a e => bumpCount e.type a) acc)).map Prod.snd).sum =
        (acc.map Prod.snd).sum + es.length := by
  induction es with
  | nil => intro acc; simp
  | cons e rest ih =>
    intro acc
    simp only [List.foldl_cons, ih, sum_bumpCount, List.length_cons]
    omega

/-- C9 (confirmed): for every correction-pipeline result, the reported
issue count equals the length of the issue list, and the per-kind
counts sum to the issue count. -/
theorem C9_issue_count_invariant (ck : ErrorChecker) (t : Text) (cg co : Bool) :
    (checkText ck t cg co).error_count = (checkText ck t cg co).errors.length ∧
    ((checkText ck t cg co).error_types.map Prod.snd).sum =
      (checkText ck t cg co).error_count := by
  refine ⟨rfl, ?_⟩
  simp [checkText, countErrorTypes, countErrorTypes_go]

/-- C8 counterexample: when the image cannot be decoded, variant
generation returns the empty sequence and recognition reports success
with empty text — it neither fails with a decode error nor retains a
grayscale baseline. -/
theorem C8_counterexample :
    preprocessImage undecodableOps = [] ∧
    (recognizeText undecodableOps true).success = true ∧
    (recognizeText undecodableOps true).error = none ∧
    (recognizeText undecodableOps true).full_text = [] :=
  ⟨rfl, rfl, rfl, rfl⟩

/-- C8 (amended): when the source image cannot be decoded, variant
generation returns an empty sequence and recognition succeeds with
empty text; when decoding succeeds, the sequence has exactly 7 entries
and starts with the grayscale baseline. -/
theorem C8_variant_generation {Img : Type} (ops : CvOps Img) :
    (ops.imread = none →
      preprocessImage ops = [] ∧
      (recognizeText ops true).success = true ∧
      (recognizeText ops true).full_text = []) ∧
    (∀ img, ops.imread = some img →
      (preprocessImage ops).length = 7 ∧
      (preprocessImage ops).head? = some (ops.cvtColorGray img)) := by
  constructor
  · intro h
    refine ⟨?_, ?_, ?_⟩ <;>
      simp [preprocessImage, h, recognizeText, selectBest, pyStrip]
  · intro img h
    constructor <;> simp [preprocessImage, h]

/-- C8 witness: the amended statement evaluated at the two concrete
capability bundles. -/
theorem C8_variant_generation_witness :
    (preprocessImage undecodableOps = [] ∧
      (recognizeText undecodableOps true).success = true ∧
      (recognizeText undecodableOps true).full_text = []) ∧
    ((preprocessImage decodableOps).length = 7 ∧
      (preprocessImage decodableOps).head? =
        some (decodableOps.cvtColorGray ())) :=
  ⟨(C8_variant_generation undecodableOps).1 rfl,
   (C8_variant_generation decodableOps).2 () rfl⟩

/-- C2 (code bug): on the input `"чер-\nный3"`, the hyphenation pass
produces the corrected text `"черный3"`, yet the confusable-character
pass scans the original input and therefore flags the split token
`"ный3"`; scanning the hyphenation output, as the spec prescribes,
would flag the joined token `"черный3"`. -/
theorem C2_confusable_scans_original_text :
    t1of (txt "чер-\nный3") = txt "черный3" ∧
    (ocrIssuesOf (txt "чер-\nный3") true).map (fun e => e.original) =
      [txt "ный3"] ∧
    (checkOcrErrors (txt "черный3")).map (fun e => e.original) =
      [txt "черный3"] ∧
    (checkText noCaps (txt "чер-\nный3") true true).errors.map
      (fun e => (e.type, e.original)) =
      [("hyphenation_error", txt "чер-\nный"), ("ocr_error", txt "ный3")] ∧
    (txt "ный3" : Text) ≠ txt "черный3" := by
  refine ⟨by decide, by decide, by decide, by decide, by decide⟩

/-- C1 counterexample: with extracted texts `"ab"` (raw length 2,
trimmed length 2) and `"c \n  "` (raw length 5, trimmed length 1), the
selection loop keeps `"c \n  "`, while the variant with the longest
trimmed text is `"ab"`. -/
theorem C1_counterexample :
    selectBest [txt "ab", txt "c \n  "] = txt "c \n  " ∧
    firstLongestTrimmed [txt "ab", txt "c \n  "] = txt "ab" ∧
    selectBest [txt "ab", txt "c \n  "] ≠
      firstLongestTrimmed [txt "ab", txt "c \n  "] ∧
    (recognizeText twoTextOps true).full_text = txt "c" ∧
    pyStrip (firstLongestTrimmed
      ((preprocessImage twoTextOps).map (recognizeWithTesseract twoTextOps))) =
      txt "ab" := by
  refine ⟨by decide, by decide, by decide, by decide, by decide⟩

/-- The selection fold, generalized over its accumulator, picks the
earliest longest text unless the accumulator is strictly longer. -/
theorem selectBest_go (ts : List Text) :
    ∀ b : Text,
      ts.foldl (fun best t => if t.length > best.length then t else best) b =
        if (firstLongest ts).length > b.length then firstLongest ts else b := by
  induction ts with
  | nil => intro b; simp [firstLongest]
  | cons t ts ih =>
    intro b
    simp only [List.foldl_cons, ih, firstLongest]
    split_ifs <;> first | rfl | (exfalso; omega)

/-- The selection loop of `recognize_text` computes the earliest text
of maximal untrimmed length. -/
theorem selectBest_eq_firstLongest (l : List Text) :
    selectBest l = firstLongest l := by
  unfold selectBest
  rw [selectBest_go]
  split_ifs with h
  · rfl
  · simp only [List.length_nil, gt_iff_lt, not_lt, Nat.le_zero] at h
    rw [List.length_eq_zero.mp h]

/-- `firstLongest` picks an element whose length dominates all entries
and strictly dominates all earlier entries. -/
theorem firstLongest_spec (l : List Text) (h : l ≠ []) :
    ∃ i, ∃ hi : i < l.length, firstLongest l = l.get ⟨i, hi⟩ ∧
      (∀ j (hj : j < l.length), (l.get ⟨j, hj⟩).length ≤ (l.get ⟨i, hi⟩).length) ∧
      (∀ j (hj : j < l.length), j < i →
        (l.get ⟨j, hj⟩).length < (l.get ⟨i, hi⟩).length) := by
  simp only [List.get_eq_getElem]
  induction l with
  | nil => exact absurd rfl h
  | cons t ts ih =>
    by_cases hts : ts = []
    · subst hts
      refine ⟨0, by simp, ?_, ?_, ?_⟩
      · simp [firstLongest]
      · intro j hj
        have hj0 : j = 0 := by simpa using hj
        subst hj0
        simp
      · intro j hj hj0
        omega
    · obtain ⟨i, hi, h1, h2, h3⟩ := ih hts
      by_cases hc : (firstLongest ts).length > t.length
      · refine ⟨i + 1, by simpa using Nat.succ_lt_succ hi, ?_, ?_, ?_⟩
        · simp only [firstLongest, List.getElem_cons_succ]
          rw [if_pos hc]
          exact h1
        · intro j hj
          cases j with
          | zero =>
            simp only [List.getElem_cons_zero, List.getElem_cons_succ]
            rw [h1] at hc
            omega
          | succ k =>
            simp only [List.getElem_cons_succ]
            exact h2 k (by simpa using Nat.lt_of_succ_lt_succ hj)
        · intro j hj hji
          cases j with
          | zero =>
            simp only [List.getElem_cons_zero, List.getElem_cons_succ]
            rw [h1] at hc
            omega
          | succ k =>
            simp only [List.getElem_cons_succ]
            exact h3 k (by simpa using Nat.lt_of_succ_lt_succ hj) (by omega)
      · refine ⟨0, by simp, ?_, ?_, ?_⟩
        · simp only [firstLongest, List.getElem_cons_zero]
          rw [if_neg hc]
        · intro j hj
          cases j with
          | zero => simp
          | succ k =>
            simp only [List.getElem_cons_zero, List.getElem_cons_succ]
            have := h2 k (by simpa using Nat.lt_of_succ_lt_succ hj)
            rw [h1] at hc
            omega
        · intro j hj hj0
          omega

/-- C1 (amended): the recognition-selection loop returns the variant
whose RAW (untrimmed) extracted text has the greatest character length,
ties broken by generation order (earliest wins); the trimmed-length
rule of the original claim is refuted by `C1_counterexample`. -/
theorem C1_selection (l : List Text) (h : l ≠ []) :
    selectBest l = firstLongest l ∧
    ∃ i, ∃ hi : i < l.length, selectBest l = l.get ⟨i, hi⟩ ∧
      (∀ j (hj : j < l.length), (l.get ⟨j, hj⟩).length ≤ (l.get ⟨i, hi⟩).length) ∧
      (∀ j (hj : j < l.length), j < i →
        (l.get ⟨j, hj⟩).length < (l.get ⟨i, hi⟩).length) := by
  refine ⟨selectBest_eq_firstLongest l, ?_⟩
  obtain ⟨i, hi, h1, h2, h3⟩ := firstLongest_spec l h
  exact ⟨i, hi, (selectBest_eq_firstLongest l).trans h1, h2, h3⟩

/-- C1 witness: the amended selection statement at a concrete list of
extracted texts. -/
theorem C1_selection_witness :
    selectBest [txt "ab", txt "c \n  "] = firstLongest [txt "ab", txt "c \n  "] ∧
    ∃ i, ∃ hi : i < ([txt "ab", txt "c \n  "] : List Text).length,
      selectBest [txt "ab", txt "c \n  "] =
        ([txt "ab", txt "c \n  "] : List Text).get ⟨i, hi⟩ ∧
      (∀ j (hj : j < ([txt "ab", txt "c \n  "] : List Text).length),
        (([txt "ab", txt "c \n  "] : List Text).get ⟨j, hj⟩).length ≤
          (([txt "ab", txt "c \n  "] : List Text).get ⟨i, hi⟩).length) ∧
      (∀ j (hj : j < ([txt "ab", txt "c \n  "] : List Text).length), j < i →
        (([txt "ab", txt "c \n  "] : List Text).get ⟨j, hj⟩).length <
          (([txt "ab", txt "c \n  "] : List Text).get ⟨i, hi⟩).length) :=
  C1_selection [txt "ab", txt "c \n  "] (by decide)

/-- C4 counterexample: the text `"3а 3а"` has one distinct affected
token but the confusable pass emits two issues — one per occurrence,
not one per distinct token. -/
theorem C4_counterexample :
    (checkOcrErrors (txt "3а 3а")).length = 2 ∧
    ((wordsOf (txt "3а 3а")).filter
      (fun w => ocrCorrectWord w ≠ w)).dedup.length = 1 ∧
    (2 : Nat) ≠ 1 := by
  refine ⟨by decide, by decide, by decide⟩

/-- C7 counterexample: a `candidates` capability call that raises
mid-scan does not yield zero issues from the spelling pass — the issue
collected before the raising call is kept. -/
theorem C7_counterexample :
    partialSpell.candidates (txt "вг") = .error "candidates failed" ∧
    (checkSpelling partialSpellChecker (txt "аб вг")).map
      (fun e => (e.type, e.original)) = [("spelling_error", txt "аб")] ∧
    (checkSpelling partialSpellChecker (txt "аб вг")).length ≠ 0 := by
  refine ⟨rfl, by decide, by decide⟩

/-- Every issue the grammar-pass core emits is a grammar issue carrying
the fixed confidence. -/
theorem checkGrammarCore_conf (t : Text) (ms : List LTMatch) :
    ∀ e ∈ checkGrammarCore t ms,
      e.type = "grammar_error" ∧ e.confidence = some conf08 := by
  intro e he
  unfold checkGrammarCore at he
  rw [List.mem_filterMap] at he
  obtain ⟨m, _, hme⟩ := he
  split at hme
  · split at hme
    · exact absurd hme (by simp)
    · cases hme
      exact ⟨rfl, rfl⟩
  · exact absurd hme (by simp)

/-- Every issue `_check_grammar` emits is a grammar issue carrying the
fixed confidence. -/
theorem checkGrammar_conf (ck : ErrorChecker) (t : Text) :
    ∀ e ∈ checkGrammar ck t,
      e.type = "grammar_error" ∧ e.confidence = some conf08 := by
  intro e he
  unfold checkGrammar at he
  rcases hlt : ck.lt with _ | f
  · simp [hlt] at he
  · rcases hf : f t with err | ms
    · simp [hlt, hf] at he
    · simp only [hlt, hf] at he
      exact checkGrammarCore_conf t ms e he

/-- The grammar application step leaves the text unchanged when no
issue's confidence strictly exceeds the threshold. -/
theorem applyGrammar_id (issues : List Issue)
    (h : ∀ e ∈ issues, ¬ (e.confidence.getD 0 > conf08)) :
    ∀ t0, applyGrammar t0 issues = t0 := by
  induction issues with
  | nil => intro t0; rfl
  | cons e rest ih =>
    intro t0
    unfold applyGrammar
    simp only [List.foldl_cons]
    rw [if_neg (h e (by simp))]
    exact ih (fun x hx => h x (by simp [hx])) t0

/-- All grammar issues of the pipeline carry the fixed confidence. -/
theorem gramIssuesOf_conf (ck : ErrorChecker) (t : Text) (cg co : Bool) :
    ∀ e ∈ gramIssuesOf ck t cg co, e.confidence = some conf08 := by
  unfold gramIssuesOf
  split
  · exact fun e he => (checkGrammar_conf ck _ e he).2
  · simp

/-- The grammar pass never changes the corrected text. -/
theorem t4of_eq_t3of (ck : ErrorChecker) (t : Text) (cg co : Bool) :
    t4of ck t cg co = t3of t co := by
  unfold t4of
  apply applyGrammar_id
  intro e he
  rw [gramIssuesOf_conf ck t cg co e he]
  simp

/-- The spelling pass depends only on the spelling capability. -/
theorem checkSpelling_only_spell (ck : ErrorChecker) (t : Text) :
    checkSpelling ck t = checkSpelling { lt := none, spell := ck.spell } t := by
  rcases ck with ⟨lt, sp⟩
  rfl

/-- The pipeline's spelling issues do not depend on the grammar
capability. -/
theorem spellIssuesOf_only_spell (ck : ErrorChecker) (t : Text) (cg co : Bool) :
    spellIssuesOf ck t cg co =
      spellIssuesOf { lt := none, spell := ck.spell } t cg co := by
  unfold spellIssuesOf
  rw [t4of_eq_t3of, t4of_eq_t3of]
  simp only [checkSpelling_only_spell]

/-- A raising `candidates` call stops the spelling scan, keeping the
issues of the words already processed. -/
theorem spellLoop_split (sp : SpellCap) (err : String) :
    ∀ (ws1 : List Text) (w : Text) (ws2 : List Text) (acc : List Issue),
      (∀ u ∈ ws1, ∃ r, sp.candidates u = .ok r) →
      sp.candidates w = .error err →
      spellLoop sp (ws1 ++ w :: ws2) acc = spellLoop sp ws1 acc := by
  intro ws1
  induction ws1 with
  | nil =>
    intro w ws2 acc _ hw
    simp only [List.nil_append, spellLoop]
    rw [hw]
  | cons u us ih =>
    intro w ws2 acc hok hw
    obtain ⟨r, hr⟩ := hok u (by simp)
    simp only [List.cons_append, spellLoop]
    rw [hr]
    cases r with
    | nil => exact ih w ws2 acc (fun x hx => hok x (by simp [hx])) hw
    | cons c cs => exact ih w ws2 _ (fun x hx => hok x (by simp [hx])) hw

/-- C10 (confirmed): the grammar pass never modifies the corrected
text — every grammar issue carries confidence exactly 0.8 while a
replacement requires strictly more than 0.8 — yet its issues are still
appended to the issue list. -/
theorem C10_grammar_pass_never_modifies (ck : ErrorChecker) (t : Text) (cg co : Bool) :
    t4of ck t cg co = t3of t co ∧
    (∀ e ∈ gramIssuesOf ck t cg co, e.confidence = some conf08) ∧
    (checkText ck t cg co).corrected_text =
      (checkText { lt := none, spell := ck.spell } t cg co).corrected_text ∧
    (checkText ck t cg co).errors =
      fixWordHyphenation t ++ ocrIssuesOf t co ++ ctxIssuesOf t co ++
        gramIssuesOf ck t cg co ++ spellIssuesOf ck t cg co ∧
    (checkText ck t cg co).errors.length =
      (checkText { lt := none, spell := ck.spell } t cg co).errors.length +
        (gramIssuesOf ck t cg co).length := by
  have hck' : gramIssuesOf { lt := none, spell := ck.spell } t cg co = [] := by
    simp [gramIssuesOf]
  have hsp := spellIssuesOf_only_spell ck t cg co
  refine ⟨t4of_eq_t3of ck t cg co, gramIssuesOf_conf ck t cg co, ?_, rfl, ?_⟩
  · show t5of ck t cg co = t5of _ t cg co
    unfold t5of
    rw [t4of_eq_t3of, t4of_eq_t3of, hsp]
  · show (errorsOf ck t cg co).length = (errorsOf _ t cg co).length + _
    unfold errorsOf
    rw [hck', ← hsp]
    simp [List.length_append]
    omega

/-- C7 (amended): a capability that is unavailable at construction time
keeps its pass silently disabled; a raising grammar `check` or spelling
`unknown` call yields zero issues from that pass and leaves the other
passes unaffected; a raising spelling `candidates` call keeps the
issues collected before it and drops the rest. -/
theorem C7_capability_failures (ck : ErrorChecker) (t : Text) (cg co : Bool) :
    (ck.lt = none → gramIssuesOf ck t cg co = []) ∧
    (ck.spell = none → spellIssuesOf ck t cg co = []) ∧
    (∀ f err, ck.lt = some f → f (t3of t co) = .error err →
      gramIssuesOf ck t cg co = [] ∧
      spellIssuesOf ck t cg co =
        spellIssuesOf { lt := none, spell := ck.spell } t cg co) ∧
    (∀ sp err, ck.spell = some sp →
      sp.unknown (cyrWords (t4of ck t cg co)) = .error err →
      spellIssuesOf ck t cg co = []) ∧
    (∀ (sp : SpellCap) (ws1 : List Text) (w : Text) (ws2 : List Text)
        (acc : List Issue) (err : String),
      (∀ u ∈ ws1, ∃ r, sp.candidates u = .ok r) →
      sp.candidates w = .error err →
      spellLoop sp (ws1 ++ w :: ws2) acc = spellLoop sp ws1 acc) := by
  refine ⟨?_, ?_, ?_, ?_,
    fun sp ws1 w ws2 acc err => spellLoop_split sp err ws1 w ws2 acc⟩
  · intro h
    simp [gramIssuesOf, h]
  · intro h
    simp [spellIssuesOf, h]
  · intro f err hlt hf
    refine ⟨?_, spellIssuesOf_only_spell ck t cg co⟩
    simp [gramIssuesOf, checkGrammar, hlt, hf]
  · intro sp err hsp hu
    simp [spellIssuesOf, checkSpelling, hsp, hu]

/-- C7 witness: the amended capability-failure statement exercised at
concrete checkers for each failure mode. -/
theorem C7_capability_failures_witness :
    gramIssuesOf noCaps (txt "аб") true true = [] ∧
    spellIssuesOf noCaps (txt "аб") true true = [] ∧
    (gramIssuesOf failingGrammar (txt "аб") true true = [] ∧
      spellIssuesOf failingGrammar (txt "аб") true true =
        spellIssuesOf { lt := none, spell := failingGrammar.spell }
          (txt "аб") true true) ∧
    spellIssuesOf failingUnknownChecker (txt "аб") true true = [] ∧
    spellLoop partialSpell ([txt "аб"] ++ txt "вг" :: []) [] =
      spellLoop partialSpell [txt "аб"] [] :=
  ⟨(C7_capability_failures noCaps (txt "аб") true true).1 rfl,
   (C7_capability_failures noCaps (txt "аб") true true).2.1 rfl,
   (C7_capability_failures failingGrammar (txt "аб") true true).2.2.1
     (fun _ => .error "lt call failed") "lt call failed" rfl rfl,
   (C7_capability_failures failingUnknownChecker (txt "аб") true true).2.2.2.1
     failingUnknownSpell "unknown failed" rfl rfl,
   (C7_capability_failures partialSpellChecker (txt "аб") true true).2.2.2.2
     partialSpell [txt "аб"] (txt "вг") [] [] "candidates failed"
     (fun u hu => by rw [List.mem_singleton.mp hu]; exact ⟨[txt "ап"], rfl⟩) rfl⟩

/-- The grammar-pass core is exactly one issue per kept match, in
order. -/
theorem checkGrammarCore_eq (t : Text) (ms : List LTMatch) :
    checkGrammarCore t ms = (ms.filter keptLTMatch).map (grammarIssueOf t) := by
  induction ms with
  | nil => rfl
  | cons m rest ih =>
    by_cases hcat : m.category = "TYPOS" ∨ m.category = "GRAMMAR"
    · cases hrep : m.replacements with
      | nil =>
        simp [checkGrammarCore, keptLTMatch, List.filterMap_cons, List.filter_cons,
          hcat, hrep, ← ih, checkGrammarCore]
      | cons s tl =>
        simp [checkGrammarCore, keptLTMatch, List.filterMap_cons, List.filter_cons,
          hcat, hrep, grammarIssueOf, ← ih, checkGrammarCore]
    · simp [checkGrammarCore, keptLTMatch, List.filterMap_cons, List.filter_cons,
        hcat, ← ih, checkGrammarCore]

/-- A text starts with its own prefix. -/
theorem startsWith_self_append (p x : Text) : startsWith p (p ++ x) = true := by
  induction p with
  | nil => rfl
  | cons c cs ih => simp [startsWith, ih]

/-- Replace-first at the first occurrence: when no occurrence of `pat`
starts inside `u`, only the shown occurrence is replaced and the suffix
`v` (which may contain further occurrences) is kept verbatim. -/
theorem pyReplaceFirst_at (pat rep : Text) (hpat : pat ≠ []) :
    ∀ (u v : Text),
      (∀ k, k < u.length → startsWith pat ((u ++ pat ++ v).drop k) = false) →
      pyReplaceFirst pat rep (u ++ pat ++ v) = u ++ rep ++ v := by
  intro u
  induction u with
  | nil =>
    intro v _
    obtain ⟨p, ps, rfl⟩ : ∃ p ps, pat = p :: ps := by
      cases pat with
      | nil => exact absurd rfl hpat
      | cons p ps => exact ⟨p, ps, rfl⟩
    simp [pyReplaceFirst, startsWith, startsWith_self_append, List.drop_succ_cons,
      List.drop_left]
  | cons c u' ih =>
    intro v h
    have h0 : startsWith pat (c :: (u' ++ pat ++ v)) = false := by
      have := h 0 (by simp)
      simpa using this
    have h0' : startsWith pat (c :: (u' ++ (pat ++ v))) = false := by
      simpa [List.append_assoc] using h0
    simp only [List.cons_append]
    simp [pyReplaceFirst, hpat, h0']
    rw [← List.append_assoc, ← List.append_assoc]
    exact ih v (fun k hk => by
      simpa using h (k + 1) (by simpa using Nat.succ_lt_succ hk))

/-- C5 (confirmed): every kept flagged span becomes exactly one issue
carrying the fixed confidence 0.8; a replacement is applied only when
the confidence strictly exceeds 0.8, and then only to the first
remaining occurrence of the exact original substring, leaving later
occurrences untouched. -/
theorem C5_grammar_policy (t : Text) (ms : List LTMatch) :
    checkGrammarCore t ms = (ms.filter keptLTMatch).map (grammarIssueOf t) ∧
    (∀ e ∈ checkGrammarCore t ms,
      e.type = "grammar_error" ∧ e.confidence = some conf08) ∧
    (∀ (t0 : Text) (issues : List Issue),
      (∀ e ∈ issues, ¬ (e.confidence.getD 0 > conf08)) →
      applyGrammar t0 issues = t0) ∧
    (∀ (e : Issue) (u v : Text), e.confidence.getD 0 > conf08 → e.original ≠ [] →
      (∀ k, k < u.length →
        startsWith e.original ((u ++ e.original ++ v).drop k) = false) →
      applyGrammar (u ++ e.original ++ v) [e] = u ++ e.suggestion ++ v) := by
  refine ⟨checkGrammarCore_eq t ms, checkGrammarCore_conf t ms,
    fun t0 issues h => applyGrammar_id issues h t0, ?_⟩
  intro e u v hconf hne h
  unfold applyGrammar
  simp only [List.foldl_cons, List.foldl_nil]
  rw [if_pos hconf]
  exact pyReplaceFirst_at e.original e.suggestion hne u v h

/-- C5 witness: the grammar replacement policy at concrete inputs — the
fixed-confidence issue changes nothing, and a confident issue replaces
only the first of two occurrences. -/
theorem C5_grammar_policy_witness :
    checkGrammarCore (txt "прив") [⟨"TYPOS", 0, 4, [txt "игра"]⟩] =
      (([⟨"TYPOS", 0, 4, [txt "игра"]⟩] : List LTMatch).filter keptLTMatch).map
        (grammarIssueOf (txt "прив")) ∧
    applyGrammar (txt "ab") [lowConfidenceIssue] = txt "ab" ∧
    applyGrammar (txt "a" ++ confidentIssue.original ++ txt "b") [confidentIssue] =
      txt "a" ++ confidentIssue.suggestion ++ txt "b" :=
  ⟨(C5_grammar_policy (txt "прив") [⟨"TYPOS", 0, 4, [txt "игра"]⟩]).1,
   (C5_grammar_policy (txt "прив") [⟨"TYPOS", 0, 4, [txt "игра"]⟩]).2.2.1
     (txt "ab") [lowConfidenceIssue] (by decide),
   (C5_grammar_policy (txt "прив") [⟨"TYPOS", 0, 4, [txt "игра"]⟩]).2.2.2
     confidentIssue (txt "a") (txt "b") (by decide) (by decide) (by decide)⟩

/-- The guarded substitution fold of the confusable pass equals the
charwise confusable mapping. -/
theorem ocrCorrectWord_eq_map (w : Text) : ocrCorrectWord w = w.map confChar := by
  have hif : ∀ (b g : Char) (v : Text),
      (if w.contains b = true then v.map (fun c => if c = b then g else c) else v) =
        v.map (fun c => if w.contains b = true ∧ c = b then g else c) := by
    intro b g v
    by_cases hb : b ∈ w
    · simp [hb]
    · simp [hb]
  unfold ocrCorrectWord ocrReplacements
  simp only [List.foldl_cons, List.foldl_nil]
  simp only [hif]
  simp only [List.map_map]
  apply List.map_congr_left
  intro c hc
  simp only [Function.comp]
  by_cases h0 : c = '0'
  · subst h0
    simp [hc, confChar, ocrReplacements, List.find?]
  · by_cases h1 : c = '1'
    · subst h1
      simp [hc, confChar, ocrReplacements, List.find?]
    · by_cases h3 : c = '3'
      · subst h3
        simp [hc, confChar, ocrReplacements, List.find?]
      · by_cases hl : c = 'l'
        · subst hl
          simp [hc, confChar, ocrReplacements, List.find?]
        · simp [h0, h1, h3, hl, Ne.symm h0, Ne.symm h1, Ne.symm h3, Ne.symm hl,
            confChar, ocrReplacements, List.find?]

/-- Every confusable issue stems from a token of the text, and its
suggestion is the corrected token, different from the original. -/
theorem checkOcrErrors_mem (t : Text) :
    ∀ e ∈ checkOcrErrors t,
      e.original ∈ wordsOf t ∧ e.suggestion = ocrCorrectWord e.original ∧
        e.suggestion ≠ e.original := by
  intro e he
  unfold checkOcrErrors at he
  rw [List.mem_filterMap] at he
  obtain ⟨w, hw, hwe⟩ := he
  by_cases hne : ocrCorrectWord w ≠ w
  · rw [if_pos hne] at hwe
    cases hwe
    exact ⟨hw, rfl, hne⟩
  · rw [if_neg hne] at hwe
    exact absurd hwe (by simp)

/-- Generic counting lemma: a filterMap guarded by a predicate yields
one output per input satisfying the predicate. -/
theorem length_filterMap_ite {α β : Type} (p : α → Prop) [DecidablePred p]
    (g : α → β) :
    ∀ ws : List α,
      (ws.filterMap (fun w => if p w then some (g w) else none)).length =
        (ws.filter (fun w => decide (p w))).length := by
  intro ws
  induction ws with
  | nil => rfl
  | cons w ws ih =>
    by_cases hp : p w <;>
      simp [List.filterMap_cons, List.filter_cons, hp, ih]

/-- One confusable issue per affected token occurrence. -/
theorem checkOcrErrors_length (t : Text) :
    (checkOcrErrors t).length =
      ((wordsOf t).filter (fun w => ocrCorrectWord w ≠ w)).length :=
  length_filterMap_ite (fun w => ocrCorrectWord w ≠ w)
    (fun w =>
      ({ type := "ocr_error", original := w, suggestion := ocrCorrectWord w,
         text := w,
         description := txt "Ошибка OCR: " ++ w ++ txt " → " ++
           ocrCorrectWord w } : Issue))
    (wordsOf t)

/-- C4 (amended): the confusable pass changes only mapped characters
within a token (the suggestion is the charwise confusable image of the
original, and unmapped characters are fixed points); a token with no
mapped characters produces zero issues; and the issue list contains one
entry per affected token OCCURRENCE (`C4_counterexample` refutes
per-distinct-token counting). -/
theorem C4_confusable_pass (t : Text) :
    (checkOcrErrors t).length =
      ((wordsOf t).filter (fun w => ocrCorrectWord w ≠ w)).length ∧
    (∀ e ∈ checkOcrErrors t,
      e.original ∈ wordsOf t ∧
      e.suggestion = e.original.map confChar ∧
      e.suggestion ≠ e.original) ∧
    (∀ w ∈ wordsOf t, ocrCorrectWord w = w →
      w ∉ (checkOcrErrors t).map (fun e => e.original)) ∧
    (∀ c : Char, (∀ bg ∈ ocrReplacements, bg.1 ≠ c) → confChar c = c) := by
  refine ⟨checkOcrErrors_length t, ?_, ?_, ?_⟩
  · intro e he
    obtain ⟨h1, h2, h3⟩ := checkOcrErrors_mem t e he
    exact ⟨h1, h2.trans (ocrCorrectWord_eq_map e.original), h3⟩
  · intro w hw hfix hmem
    rw [List.mem_map] at hmem
    obtain ⟨e, he, horig⟩ := hmem
    obtain ⟨_, h2, h3⟩ := checkOcrErrors_mem t e he
    rw [horig] at h2
    exact h3 (by rw [horig]; exact h2.trans hfix)
  · intro c hcl
    unfold confChar
    rw [List.find?_eq_none.mpr (fun bg hbg => by simpa using hcl bg hbg)]
    rfl

/-- C4 witness: the amended statement at concrete texts and issues. -/
theorem C4_confusable_pass_witness :
    (checkOcrErrors (txt "3а х")).length =
      ((wordsOf (txt "3а х")).filter (fun w => ocrCorrectWord w ≠ w)).length ∧
    (issue3a.original ∈ wordsOf (txt "3а х") ∧
      issue3a.suggestion = issue3a.original.map confChar ∧
      issue3a.suggestion ≠ issue3a.original) ∧
    txt "х" ∉ (checkOcrErrors (txt "3а х")).map (fun e => e.original) ∧
    confChar 'ж' = 'ж' :=
  ⟨(C4_confusable_pass (txt "3а х")).1,
   (C4_confusable_pass (txt "3а х")).2.1 issue3a (by decide),
   (C4_confusable_pass (txt "3а х")).2.2.1 (txt "х") (by decide) (by decide),
   (C4_confusable_pass (txt "3а х")).2.2.2 'ж' (by decide)⟩

/-- Slicing commutes with a character map. -/
theorem slice_map (f : Char → Char) (t : Text) (a b : Nat) :
    slice (t.map f) a b = (slice t a b).map f := by
  simp [slice, List.map_take, List.map_drop]

/-- The case-insensitive scan is invariant under lowercasing the
scanned text (the scan condition already lowercases each slice). -/
theorem igScanGo_lower (t pat : Text) :
    ∀ fuel i, igScanGo (pyLower t) pat fuel i = igScanGo t pat fuel i := by
  intro fuel
  induction fuel with
  | zero => intro i; rfl
  | succ f ih =>
    intro i
    have hlen : (pyLower t).length = t.length := by simp [pyLower]
    have hsl : pyLower (slice (pyLower t) i (i + pat.length)) =
        pyLower (slice t i (i + pat.length)) := by
      rw [show slice (pyLower t) i (i + pat.length) =
            (slice t i (i + pat.length)).map pyLowerChar from slice_map _ t _ _]
      exact pyLower_idem _
    simp only [igScanGo, hlen, hsl]
    split_ifs <;> simp [ih]

/-- The case-insensitive match positions are invariant under
lowercasing the text. -/
theorem igScan_lower (t pat : Text) : igScan (pyLower t) pat = igScan t pat := by
  unfold igScan
  rw [show (pyLower t).length = t.length from by simp [pyLower]]
  exact igScanGo_lower t pat t.length 0

/-- Per dictionary entry: lowercasing the text preserves the issue
count and suggestions, and matches the originals up to lowercasing. -/
theorem contextIssuesFor_lower (t : Text) (wc : Text × Text) :
    ((contextIssuesFor (pyLower t) wc).map (fun e => e.suggestion) =
      (contextIssuesFor t wc).map (fun e => e.suggestion)) ∧
    ((contextIssuesFor (pyLower t) wc).map (fun e => e.original) =
      (contextIssuesFor t wc).map (fun e => pyLower e.original)) ∧
    (contextIssuesFor (pyLower t) wc).length = (contextIssuesFor t wc).length := by
  unfold contextIssuesFor
  rw [pyLower_idem, igScan_lower]
  split_ifs with h
  · refine ⟨?_, ?_, ?_⟩
    · simp [List.map_map, contextIssueAt, Function.comp]
    · simp only [List.map_map]
      apply List.map_congr_left
      intro i _
      simp [contextIssueAt, Function.comp, slice_map, pyLower]
    · simp
  · simp

/-- The whole context pass is case-insensitive: lowercasing the text
preserves the issue count and the suggestions, and the flagged
originals agree up to lowercasing. -/
theorem checkContextErrors_lower (t : Text) :
    ((checkContextErrors (pyLower t)).map (fun e => e.suggestion) =
      (checkContextErrors t).map (fun e => e.suggestion)) ∧
    ((checkContextErrors (pyLower t)).map (fun e => e.original) =
      (checkContextErrors t).map (fun e => pyLower e.original)) ∧
    (checkContextErrors (pyLower t)).length = (checkContextErrors t).length := by
  unfold checkContextErrors
  induction contextErrors with
  | nil => simp
  | cons wc es ih =>
    obtain ⟨ih1, ih2, ih3⟩ := ih
    obtain ⟨h1, h2, h3⟩ := contextIssuesFor_lower t wc
    simp only [List.map_cons, List.flatten_cons, List.map_append,
      List.length_append, ih1, ih2, ih3, h1, h2, h3]
    simp

/-- C6 (confirmed): context repair is case-insensitive — lowercasing
the input changes neither the number of flagged occurrences nor the
suggested phrases, and the flagged originals agree up to case; both
`\"в нес\"` and `\"В НЕС\"` are flagged and replaced with the configured
correct phrase, and a text with two differently-cased occurrences has
both replaced. -/
theorem C6_context_case_insensitive (t : Text) :
    ((checkContextErrors (pyLower t)).map (fun e => e.suggestion) =
      (checkContextErrors t).map (fun e => e.suggestion)) ∧
    ((checkContextErrors (pyLower t)).map (fun e => e.original) =
      (checkContextErrors t).map (fun e => pyLower e.original)) ∧
    (checkContextErrors (pyLower t)).length = (checkContextErrors t).length ∧
    ((checkText noCaps (txt "в нес") true true).errors.map
      (fun e => (e.type, e.suggestion)) = [("context_error", txt "в нее")]) ∧
    ((checkText noCaps (txt "В НЕС") true true).errors.map
      (fun e => (e.type, e.suggestion)) = [("context_error", txt "в нее")]) ∧
    (checkText noCaps (txt "в нес") true true).corrected_text = txt "в нее" ∧
    (checkText noCaps (txt "В НЕС") true true).corrected_text = txt "в нее" ∧
    (checkText noCaps (txt "в нес и В НЕС") true true).corrected_text =
      txt "в нее и в нее" := by
  obtain ⟨h1, h2, h3⟩ := checkContextErrors_lower t
  exact ⟨h1, h2, h3, by decide, by decide, by decide, by decide, by decide⟩

/-- A slice as drop-then-take. -/
theorem slice_eq (t : Text) (a b : Nat) : slice t a b = (t.drop a).take (b - a) := by
  simp [slice, List.drop_take]

/-- A slice splits at an interior point. -/
theorem slice_append (t : Text) {a m b : Nat} (h1 : a ≤ m) (h2 : m ≤ b) :
    slice t a b = slice t a m ++ slice t m b := by
  rw [slice_eq, slice_eq, slice_eq]
  rw [show t.drop m = (t.drop a).drop (m - a) from by rw [List.drop_drop]; congr 1; omega]
  rw [← List.take_add]
  congr 1
  omega

/-- Peeling the first character off a slice. -/
theorem slice_cons (t : Text) {a b : Nat} (hab : a < b) (hat : a < t.length) :
    slice t a b = t.getD a ' ' :: slice t (a + 1) b := by
  rw [slice_eq, slice_eq, List.drop_eq_getElem_cons hat,
    List.getD_eq_getElem t ' ' hat]
  rw [show b - a = (b - (a + 1)) + 1 from by omega]
  rfl

/-- The empty slice. -/
theorem slice_nil (t : Text) (a : Nat) : slice t a a = [] := by
  rw [slice_eq]
  simp

/-- A slice of characters that all satisfy a predicate satisfies `all`. -/
theorem slice_all (t : Text) (p : Char → Bool) :
    ∀ (n a : Nat), (∀ j, a ≤ j → j < a + n → p (t.getD j ' ') = true) →
      a + n ≤ t.length → (slice t a (a + n)).all p = true := by
  intro n
  induction n with
  | zero => intro a _ _; simp [slice_nil]
  | succ m ih =>
    intro a h hlen
    rw [slice_cons (t := t) (by omega) (by omega)]
    simp only [List.all_cons, Bool.and_eq_true]
    refine ⟨h a (le_refl a) (by omega), ?_⟩
    rw [show a + (m + 1) = (a + 1) + m from by omega]
    exact ih (a + 1) (fun j hj1 hj2 => h j (by omega) (by omega)) (by omega)

/-- The left word extension never moves right. -/
theorem wordStart_le (t : Text) : ∀ i, wordStart t i ≤ i := by
  intro i
  induction i with
  | zero => exact le_refl 0
  | succ n ih =>
    unfold wordStart
    split
    · exact le_trans ih (by omega)
    · exact le_refl _

/-- Every character strictly between the word start and the match start
is alphabetic. -/
theorem wordStart_alpha (t : Text) :
    ∀ i j, wordStart t i ≤ j → j < i → pyIsAlpha (t.getD j ' ') = true := by
  intro i
  induction i with
  | zero => intro j _ hj; omega
  | succ n ih =>
    intro j h1 h2
    unfold wordStart at h1
    by_cases ha : pyIsAlpha (t.getD n ' ') = true
    · rw [if_pos ha] at h1
      by_cases hj : j = n
      · subst hj; exact ha
      · exact ih j h1 (by omega)
    · rw [if_neg ha] at h1
      omega

/-- The word start is maximal: it is position 0 or preceded by a
non-alphabetic character. -/
theorem wordStart_boundary (t : Text) :
    ∀ i, wordStart t i = 0 ∨ pyIsAlpha (t.getD (wordStart t i - 1) ' ') = false := by
  intro i
  induction i with
  | zero => exact Or.inl rfl
  | succ n ih =>
    unfold wordStart
    by_cases ha : pyIsAlpha (t.getD n ' ') = true
    · rw [if_pos ha]
      exact ih
    · rw [if_neg ha]
      right
      simpa using eq_false_of_ne_true ha

/-- The right word extension never moves left. -/
theorem wordEndGo_ge (t : Text) : ∀ fuel i, i ≤ wordEndGo t fuel i := by
  intro fuel
  induction fuel with
  | zero => intro i; exact le_refl i
  | succ f ih =>
    intro i
    unfold wordEndGo
    split
    · exact le_trans (by omega) (ih (i + 1))
    · exact le_refl i

/-- The right word extension stays within the text. -/
theorem wordEndGo_le (t : Text) :
    ∀ fuel i, i ≤ t.length → wordEndGo t fuel i ≤ t.length := by
  intro fuel
  induction fuel with
  | zero => intro i h; exact h
  | succ f ih =>
    intro i h
    unfold wordEndGo
    split
    · next hc =>
      simp only [Bool.and_eq_true, decide_eq_true_eq] at hc
      exact ih (i + 1) (by omega)
    · exact h

/-- Every character between the match end and the word end is
alphabetic. -/
theorem wordEndGo_alpha (t : Text) :
    ∀ fuel i j, i ≤ j → j < wordEndGo t fuel i →
      pyIsAlpha (t.getD j ' ') = true := by
  intro fuel
  induction fuel with
  | zero => intro i j h1 h2; unfold wordEndGo at h2; omega
  | succ f ih =>
    intro i j h1 h2
    unfold wordEndGo at h2
    split at h2
    · next hc =>
      simp only [Bool.and_eq_true, decide_eq_true_eq] at hc
      by_cases hj : j = i
      · subst hj; exact hc.2
      · exact ih (i + 1) j (by omega) h2
    · omega

/-- The word end is maximal: it is the text length or followed by a
non-alphabetic character (given sufficient fuel). -/
theorem wordEndGo_boundary (t : Text) :
    ∀ fuel i, i ≤ t.length → t.length ≤ fuel + i →
      wordEndGo t fuel i = t.length ∨
        pyIsAlpha (t.getD (wordEndGo t fuel i) ' ') = false := by
  intro fuel
  induction fuel with
  | zero =>
    intro i h hf
    unfold wordEndGo
    left
    omega
  | succ f ih =>
    intro i h hf
    unfold wordEndGo
    split
    · next hc =>
      simp only [Bool.and_eq_true, decide_eq_true_eq] at hc
      exact ih (i + 1) (by omega) (by omega)
    · next hc =>
      simp only [Bool.and_eq_true, decide_eq_true_eq, not_and] at hc
      by_cases hi : i < t.length
      · right
        exact eq_false_of_ne_true (by simpa using hc hi)
      · left
        omega

/-- Every position the hyphenation scan reports is a pattern match. -/
theorem hyphScanGo_sound (t : Text) :
    ∀ fuel i s, s ∈ hyphScanGo t fuel i → hyphAt t s = true := by
  intro fuel
  induction fuel with
  | zero => intro i s hs; simp [hyphScanGo] at hs
  | succ f ih =>
    intro i s hs
    unfold hyphScanGo at hs
    split at hs
    · split at hs
      · next hh =>
        rcases List.mem_cons.mp hs with h | h
        · subst h; exact hh
        · exact ih (i + 4) s h
      · exact ih (i + 1) s hs
    · simp at hs

/-- Unpacking a hyphenation-pattern match. -/
theorem hyphAt_spec (t : Text) (s : Nat) (h : hyphAt t s = true) :
    s + 4 ≤ t.length ∧ isCyr (t.getD s ' ') = true ∧
      t.getD (s + 1) ' ' = '-' ∧ t.getD (s + 2) ' ' = '\n' ∧
      isCyr (t.getD (s + 3) ' ') = true := by
  simp only [hyphAt, Bool.and_eq_true, decide_eq_true_eq] at h
  exact ⟨h.1.1.1.1, h.1.1.1.2, h.1.1.2, h.1.2, h.2⟩

/-- C3 (confirmed): every hyphenation issue expands its match to the
full surrounding word (maximal alphabetic extension on both sides,
Cyrillic letters around the hyphen-break) and suggests that word with
the hyphen and line break removed; the substitution is applied to every
occurrence — concretely, `\"чер-\\nный\"` yields `\"черный\"` with no
residual hyphen-newline pair, and a text containing the split word
twice has both occurrences repaired. -/
theorem C3_hyphenation :
    (∀ (t : Text) (e : Issue), e ∈ fixWordHyphenation t →
      ∃ (a b : Text) (c1 c2 : Char),
        isCyr c1 = true ∧ isCyr c2 = true ∧
        a.all pyIsAlpha = true ∧ b.all pyIsAlpha = true ∧
        e.original = a ++ c1 :: '-' :: '\n' :: c2 :: b ∧
        e.suggestion = a ++ c1 :: c2 :: b ∧
        (∃ ws we, e.original = slice t ws we ∧
          (ws = 0 ∨ pyIsAlpha (t.getD (ws - 1) ' ') = false) ∧
          (we = t.length ∨ pyIsAlpha (t.getD we ' ') = false))) ∧
    (checkText noCaps (txt "чер-\nный") true true).corrected_text = txt "черный" ∧
    containsSub ((checkText noCaps (txt "чер-\nный") true true).corrected_text)
      (txt "-\n") = false ∧
    (checkText noCaps (txt "чер-\nный и чер-\nный") true true).corrected_text =
      txt "черный и черный" := by
  refine ⟨?_, by decide, by decide, by decide⟩
  intro t e he
  unfold fixWordHyphenation at he
  rw [List.mem_map] at he
  obtain ⟨s, hs, rfl⟩ := he
  have hat := hyphScanGo_sound t t.length 0 s hs
  obtain ⟨hlen, hc1, hdash, hnl, hc2⟩ := hyphAt_spec t s hat
  set c1 := t.getD s ' ' with hc1def
  set c2 := t.getD (s + 3) ' ' with hc2def
  set ws := wordStart t s with hwsdef
  set we := wordEndGo t t.length (s + 4) with hwedef
  have hws_le : ws ≤ s := wordStart_le t s
  have hwe_ge : s + 4 ≤ we := wordEndGo_ge t t.length (s + 4)
  have hwe_le : we ≤ t.length := wordEndGo_le t t.length (s + 4) hlen
  -- the four characters of the match
  have hmid : slice t s (s + 4) = c1 :: '-' :: '\n' :: c2 :: [] := by
    rw [slice_cons t (by omega) (by omega)]
    rw [slice_cons t (by omega) (by omega)]
    rw [slice_cons t (by omega) (by omega)]
    rw [slice_cons t (by omega) (by omega)]
    rw [show s + 1 + 1 + 1 + 1 = s + 4 from by omega, slice_nil]
    rw [show s + 1 + 1 + 1 = s + 3 from by omega]
    rw [show s + 1 + 1 = s + 2 from by omega]
    rw [hdash, hnl]
  refine ⟨slice t ws s, slice t (s + 4) we, c1, c2, hc1, hc2, ?_, ?_, ?_, ?_, ?_⟩
  · -- left extension is alphabetic
    have := slice_all t pyIsAlpha (s - ws) ws
      (fun j hj1 hj2 => wordStart_alpha t s j hj1 (by omega)) (by omega)
    rwa [show ws + (s - ws) = s from by omega] at this
  · -- right extension is alphabetic
    have := slice_all t pyIsAlpha (we - (s + 4)) (s + 4)
      (fun j hj1 hj2 => wordEndGo_alpha t t.length (s + 4) j hj1 (by omega))
      (by omega)
    rwa [show s + 4 + (we - (s + 4)) = we from by omega] at this
  · -- original decomposes around the match
    show slice t ws we = _
    rw [slice_append t hws_le (le_trans (by omega) hwe_ge),
      slice_append t (show s ≤ s + 4 from by omega) hwe_ge, hmid]
    simp
  · -- suggestion is the original with the hyphen-break removed
    show slice t ws s ++ [c1, c2] ++ slice t (s + 4) we = _
    simp
  · exact ⟨ws, we, rfl, wordStart_boundary t s,
      wordEndGo_boundary t t.length (s + 4) hlen (by omega)⟩

/-- C3 witness: the word-decomposition statement at the concrete match
of `\"чер-\\nный\"`. -/
theorem C3_hyphenation_witness :
    ∃ (a b : Text) (c1 c2 : Char),
      isCyr c1 = true ∧ isCyr c2 = true ∧
      a.all pyIsAlpha = true ∧ b.all pyIsAlpha = true ∧
      (hyphIssueAt (txt "чер-\nный") 2).original =
        a ++ c1 :: '-' :: '\n' :: c2 :: b ∧
      (hyphIssueAt (txt "чер-\nный") 2).suggestion = a ++ c1 :: c2 :: b ∧
      (∃ ws we, (hyphIssueAt (txt "чер-\nный") 2).original =
          slice (txt "чер-\nный") ws we ∧
        (ws = 0 ∨ pyIsAlpha ((txt "чер-\nный").getD (ws - 1) ' ') = false) ∧
        (we = (txt "чер-\nный").length ∨
          pyIsAlpha ((txt "чер-\nный").getD we ' ') = false)) :=
  C3_hyphenation.1 (txt "чер-\nный") (hyphIssueAt (txt "чер-\nный") 2) (by decide)

end ImageToText
